import Mathlib

/-!
Verification of the geometry / layout core of the PDF text+stamp application
(`streamlit_app.py`).  Python floats are modelled by `ℚ`, Python ints by `ℤ`,
Python strings by `List Char`.  Each definition is a direct translation of the
function of the same name in the source.
-/

/-- A rectangle `(x0, y0, x1, y1)` — the `RectPT`-style 4-tuples used
throughout the app, in any of the three coordinate spaces. -/
@[ext]
structure Rect where
  x0 : ℚ
  y0 : ℚ
  x1 : ℚ
  y1 : ℚ
deriving DecidableEq, Repr

/-- Python `int()` truncation toward zero on a rational; on nonnegative values
it agrees with the floor. -/
def pyInt (q : ℚ) : ℤ := if q < 0 then ⌈q⌉ else ⌊q⌋

/-- `rect_disp_to_rect_pt` from the source: sort the x-pair and the y-pair,
divide each coordinate by the display scale, clamp into
`[0, img_w_px] × [0, img_h_px]`, then scale by `page_w_pt/img_w_px` and
`page_h_pt/img_h_px` to reach PDF-point space.  The integer pixel sizes of the
source are passed here as rationals (the source converts them with `float`
before use). -/
def rect_disp_to_rect_pt (rect_disp : Rect)
    (display_scale img_w_px img_h_px page_w_pt page_h_pt : ℚ) : Rect :=
  let x0d := min rect_disp.x0 rect_disp.x1
  let x1d := max rect_disp.x0 rect_disp.x1
  let y0d := min rect_disp.y0 rect_disp.y1
  let y1d := max rect_disp.y0 rect_disp.y1
  let x0 := x0d / display_scale
  let y0 := y0d / display_scale
  let x1 := x1d / display_scale
  let y1 := y1d / display_scale
  let x0c := max 0 (min img_w_px x0)
  let x1c := max 0 (min img_w_px x1)
  let y0c := max 0 (min img_h_px y0)
  let y1c := max 0 (min img_h_px y1)
  let sx := page_w_pt / img_w_px
  let sy := page_h_pt / img_h_px
  ⟨x0c * sx, y0c * sy, x1c * sx, y1c * sy⟩

/-- `rect_pt_to_rect_px` from the source: scale a PDF-point rectangle to
full-resolution pixel space by `img_w_px/page_w_pt` and `img_h_px/page_h_pt`. -/
def rect_pt_to_rect_px (rect_pt : Rect)
    (img_w_px img_h_px page_w_pt page_h_pt : ℚ) : Rect :=
  let sx := img_w_px / page_w_pt
  let sy := img_h_px / page_h_pt
  ⟨rect_pt.x0 * sx, rect_pt.y0 * sy, rect_pt.x1 * sx, rect_pt.y1 * sy⟩

/-- Uniform scaling of a rectangle by a factor — the `* displayScale` step in
the spec's round-trip property (the canvas shows the full-resolution render
resized by the display scale). -/
def rect_scale (k : ℚ) (r : Rect) : Rect :=
  ⟨r.x0 * k, r.y0 * k, r.x1 * k, r.y1 * k⟩

theorem clamp_nonneg (m v : ℚ) : 0 ≤ max 0 (min m v) := le_max_left 0 _

theorem clamp_le_of_nonneg {m : ℚ} (hm : 0 ≤ m) (v : ℚ) : max 0 (min m v) ≤ m :=
  max_le hm (min_le_left m v)

theorem clamp_mono {v w : ℚ} (m : ℚ) (h : v ≤ w) :
    max 0 (min m v) ≤ max 0 (min m w) :=
  max_le_max le_rfl (min_le_min le_rfl h)

theorem clamp_scale_bounds {ds iw pw : ℚ} (hds : 0 < ds) (hiw : 0 < iw)
    (hpw : 0 < pw) (a b : ℚ) (hab : a ≤ b) :
    0 ≤ max 0 (min iw (a / ds)) * (pw / iw) ∧
    max 0 (min iw (a / ds)) * (pw / iw) ≤ max 0 (min iw (b / ds)) * (pw / iw) ∧
    max 0 (min iw (b / ds)) * (pw / iw) ≤ pw := by
  have hsx : 0 ≤ pw / iw := div_nonneg hpw.le hiw.le
  refine ⟨mul_nonneg (clamp_nonneg _ _) hsx, ?_, ?_⟩
  · refine mul_le_mul_of_nonneg_right (clamp_mono _ ?_) hsx
    exact div_le_div_of_nonneg_right hab hds.le
  · calc max 0 (min iw (b / ds)) * (pw / iw)
        ≤ iw * (pw / iw) :=
          mul_le_mul_of_nonneg_right (clamp_le_of_nonneg hiw.le _) hsx
      _ = pw := by
          have h1 : iw ≠ 0 := hiw.ne'
          field_simp

theorem coord_roundtrip {ds iw pw : ℚ} (hds : 0 < ds) (hiw : 0 < iw)
    (hpw : 0 < pw) {x : ℚ} (h0 : 0 ≤ x) (h1 : x ≤ pw) :
    max 0 (min iw (x * (iw / pw) * ds / ds)) * (pw / iw) = x := by
  have hpw0 : pw ≠ 0 := hpw.ne'
  have hiw0 : iw ≠ 0 := hiw.ne'
  have hx : x * (iw / pw) * ds / ds = x * (iw / pw) :=
    mul_div_cancel_right₀ _ hds.ne'
  rw [hx]
  have hle : x * (iw / pw) ≤ iw := by
    calc x * (iw / pw) ≤ pw * (iw / pw) :=
          mul_le_mul_of_nonneg_right h1 (div_nonneg hiw.le hpw.le)
      _ = iw := by field_simp
  have h0' : 0 ≤ x * (iw / pw) := mul_nonneg h0 (div_nonneg hiw.le hpw.le)
  rw [min_eq_right hle, max_eq_right h0']
  field_simp

/-- Claim C2: for `display_scale > 0` and positive image and page dimensions,
every coordinate of the rectangle returned by `rect_disp_to_rect_pt` lies
within the page bounds and the rectangle is normalized:
`0 ≤ x0 ≤ x1 ≤ page_w_pt` and `0 ≤ y0 ≤ y1 ≤ page_h_pt`, even when the drawn
rectangle extends partly outside the canvas. -/
theorem rect_disp_to_rect_pt_in_page_bounds (r : Rect) (ds iw ih pw ph : ℚ)
    (hds : 0 < ds) (hiw : 0 < iw) (hih : 0 < ih) (hpw : 0 < pw) (hph : 0 < ph) :
    0 ≤ (rect_disp_to_rect_pt r ds iw ih pw ph).x0 ∧
    (rect_disp_to_rect_pt r ds iw ih pw ph).x0 ≤
      (rect_disp_to_rect_pt r ds iw ih pw ph).x1 ∧
    (rect_disp_to_rect_pt r ds iw ih pw ph).x1 ≤ pw ∧
    0 ≤ (rect_disp_to_rect_pt r ds iw ih pw ph).y0 ∧
    (rect_disp_to_rect_pt r ds iw ih pw ph).y0 ≤
      (rect_disp_to_rect_pt r ds iw ih pw ph).y1 ∧
    (rect_disp_to_rect_pt r ds iw ih pw ph).y1 ≤ ph := by
  have hx := clamp_scale_bounds hds hiw hpw (min r.x0 r.x1) (max r.x0 r.x1) min_le_max
  have hy := clamp_scale_bounds hds hih hph (min r.y0 r.y1) (max r.y0 r.y1) min_le_max
  simp only [rect_disp_to_rect_pt]
  exact ⟨hx.1, hx.2.1, hx.2.2, hy.1, hy.2.1, hy.2.2⟩

/-- Concrete instance of claim C2: a rectangle drawn partly outside a
`10 × 10` canvas is clamped into the `10 × 10` point page. -/
theorem rect_disp_to_rect_pt_in_page_bounds_witness :
    (0:ℚ) < 1 ∧ (0:ℚ) < 10 ∧
    (0 ≤ (rect_disp_to_rect_pt ⟨-5, 3, 20, 4⟩ 1 10 10 10 10).x0 ∧
     (rect_disp_to_rect_pt ⟨-5, 3, 20, 4⟩ 1 10 10 10 10).x0 ≤
       (rect_disp_to_rect_pt ⟨-5, 3, 20, 4⟩ 1 10 10 10 10).x1 ∧
     (rect_disp_to_rect_pt ⟨-5, 3, 20, 4⟩ 1 10 10 10 10).x1 ≤ 10 ∧
     0 ≤ (rect_disp_to_rect_pt ⟨-5, 3, 20, 4⟩ 1 10 10 10 10).y0 ∧
     (rect_disp_to_rect_pt ⟨-5, 3, 20, 4⟩ 1 10 10 10 10).y0 ≤
       (rect_disp_to_rect_pt ⟨-5, 3, 20, 4⟩ 1 10 10 10 10).y1 ∧
     (rect_disp_to_rect_pt ⟨-5, 3, 20, 4⟩ 1 10 10 10 10).y1 ≤ 10) :=
  ⟨by norm_num, by norm_num,
   rect_disp_to_rect_pt_in_page_bounds ⟨-5, 3, 20, 4⟩ 1 10 10 10 10
     (by norm_num) (by norm_num) (by norm_num) (by norm_num) (by norm_num)⟩

/-- Claim C1 (amended): the display→point transform inverts the point→pixel
transform followed by display scaling, for every rectangle in PDF-point space
that is normalized and lies within the page bounds
(`0 ≤ x0 ≤ x1 ≤ page_w_pt`, `0 ≤ y0 ≤ y1 ≤ page_h_pt`); in the exact rational
model the recovery is exact. -/
theorem roundtrip_recovers_rect (r : Rect) (ds iw ih pw ph : ℚ)
    (hds : 0 < ds) (hiw : 0 < iw) (hih : 0 < ih) (hpw : 0 < pw) (hph : 0 < ph)
    (hx0 : 0 ≤ r.x0) (hx01 : r.x0 ≤ r.x1) (hx1 : r.x1 ≤ pw)
    (hy0 : 0 ≤ r.y0) (hy01 : r.y0 ≤ r.y1) (hy1 : r.y1 ≤ ph) :
    rect_disp_to_rect_pt (rect_scale ds (rect_pt_to_rect_px r iw ih pw ph))
      ds iw ih pw ph = r := by
  have hxm : r.x0 * (iw / pw) * ds ≤ r.x1 * (iw / pw) * ds :=
    mul_le_mul_of_nonneg_right
      (mul_le_mul_of_nonneg_right hx01 (div_nonneg hiw.le hpw.le)) hds.le
  have hym : r.y0 * (ih / ph) * ds ≤ r.y1 * (ih / ph) * ds :=
    mul_le_mul_of_nonneg_right
      (mul_le_mul_of_nonneg_right hy01 (div_nonneg hih.le hph.le)) hds.le
  simp only [rect_pt_to_rect_px, rect_scale, rect_disp_to_rect_pt]
  ext
  · simp only [min_eq_left hxm]
    exact coord_roundtrip hds hiw hpw hx0 (hx01.trans hx1)
  · simp only [min_eq_left hym]
    exact coord_roundtrip hds hih hph hy0 (hy01.trans hy1)
  · simp only [max_eq_right hxm]
    exact coord_roundtrip hds hiw hpw (hx0.trans hx01) hx1
  · simp only [max_eq_right hym]
    exact coord_roundtrip hds hih hph (hy0.trans hy01) hy1

/-- Concrete instance of the amended claim C1: the round trip recovers the
in-bounds normalized rectangle `(1/2, 1/3, 2, 3)` on a `4 × 4`-point page
rendered at `8 × 6` pixels and displayed at scale `2`. -/
theorem roundtrip_recovers_rect_witness :
    (0:ℚ) < 2 ∧ (0:ℚ) < 8 ∧ (0:ℚ) < 6 ∧ (0:ℚ) < 4 ∧
    (0:ℚ) ≤ 1/2 ∧ (1/2:ℚ) ≤ 2 ∧ (2:ℚ) ≤ 4 ∧
    (0:ℚ) ≤ 1/3 ∧ (1/3:ℚ) ≤ 3 ∧ (3:ℚ) ≤ 4 ∧
    rect_disp_to_rect_pt
      (rect_scale 2 (rect_pt_to_rect_px ⟨1/2, 1/3, 2, 3⟩ 8 6 4 4)) 2 8 6 4 4 =
      ⟨1/2, 1/3, 2, 3⟩ :=
  ⟨by norm_num, by norm_num, by norm_num, by norm_num, by norm_num, by norm_num,
   by norm_num, by norm_num, by norm_num, by norm_num,
   roundtrip_recovers_rect ⟨1/2, 1/3, 2, 3⟩ 2 8 6 4 4 (by norm_num) (by norm_num)
     (by norm_num) (by norm_num) (by norm_num) (by norm_num) (by norm_num)
     (by norm_num) (by norm_num) (by norm_num) (by norm_num)⟩

/-- Claim C1 as stated is false for rectangles outside the page bounds: the
rectangle `(-1, 0, 0, 0)` on a unit page at unit render and display scale is
not recovered by the round trip (its negative coordinate is clamped to `0`). -/
theorem roundtrip_counterexample :
    rect_disp_to_rect_pt (rect_scale 1 (rect_pt_to_rect_px ⟨-1, 0, 0, 0⟩ 1 1 1 1))
      1 1 1 1 1 ≠ ⟨-1, 0, 0, 0⟩ := by
  norm_num [rect_disp_to_rect_pt, rect_pt_to_rect_px, rect_scale, Rect.ext_iff]

/-- Claim C7: `rect_disp_to_rect_pt` sorts the x-pair and the y-pair first, so
the four corner-order permutations of the same two opposite corners yield the
same PDF-point rectangle, and (for positive scales and dimensions) that
rectangle is normalized: `x0 ≤ x1` and `y0 ≤ y1`. -/
theorem rect_disp_to_rect_pt_corner_order (a b c d ds iw ih pw ph : ℚ)
    (hds : 0 < ds) (hiw : 0 < iw) (hih : 0 < ih) (hpw : 0 < pw) (hph : 0 < ph) :
    (rect_disp_to_rect_pt ⟨c, b, a, d⟩ ds iw ih pw ph =
       rect_disp_to_rect_pt ⟨a, b, c, d⟩ ds iw ih pw ph ∧
     rect_disp_to_rect_pt ⟨a, d, c, b⟩ ds iw ih pw ph =
       rect_disp_to_rect_pt ⟨a, b, c, d⟩ ds iw ih pw ph ∧
     rect_disp_to_rect_pt ⟨c, d, a, b⟩ ds iw ih pw ph =
       rect_disp_to_rect_pt ⟨a, b, c, d⟩ ds iw ih pw ph) ∧
    (rect_disp_to_rect_pt ⟨a, b, c, d⟩ ds iw ih pw ph).x0 ≤
      (rect_disp_to_rect_pt ⟨a, b, c, d⟩ ds iw ih pw ph).x1 ∧
    (rect_disp_to_rect_pt ⟨a, b, c, d⟩ ds iw ih pw ph).y0 ≤
      (rect_disp_to_rect_pt ⟨a, b, c, d⟩ ds iw ih pw ph).y1 := by
  have hx := clamp_scale_bounds hds hiw hpw (min a c) (max a c) min_le_max
  have hy := clamp_scale_bounds hds hih hph (min b d) (max b d) min_le_max
  refine ⟨⟨?_, ?_, ?_⟩, ?_, ?_⟩
  · simp [rect_disp_to_rect_pt, min_comm, max_comm]
  · simp [rect_disp_to_rect_pt, min_comm, max_comm]
  · simp [rect_disp_to_rect_pt, min_comm, max_comm]
  · simpa only [rect_disp_to_rect_pt] using hx.2.1
  · simpa only [rect_disp_to_rect_pt] using hy.2.1

/-- Concrete instance of claim C7: the corners `(9, 8)` and `(2, 5)` given in
all four orders produce one identical normalized point rectangle on a
`10 × 10` page at unit scales. -/
theorem rect_disp_to_rect_pt_corner_order_witness :
    (0:ℚ) < 1 ∧ (0:ℚ) < 10 ∧
    ((rect_disp_to_rect_pt ⟨2, 8, 9, 5⟩ 1 10 10 10 10 =
        rect_disp_to_rect_pt ⟨9, 8, 2, 5⟩ 1 10 10 10 10 ∧
      rect_disp_to_rect_pt ⟨9, 5, 2, 8⟩ 1 10 10 10 10 =
        rect_disp_to_rect_pt ⟨9, 8, 2, 5⟩ 1 10 10 10 10 ∧
      rect_disp_to_rect_pt ⟨2, 5, 9, 8⟩ 1 10 10 10 10 =
        rect_disp_to_rect_pt ⟨9, 8, 2, 5⟩ 1 10 10 10 10) ∧
     (rect_disp_to_rect_pt ⟨9, 8, 2, 5⟩ 1 10 10 10 10).x0 ≤
       (rect_disp_to_rect_pt ⟨9, 8, 2, 5⟩ 1 10 10 10 10).x1 ∧
     (rect_disp_to_rect_pt ⟨9, 8, 2, 5⟩ 1 10 10 10 10).y0 ≤
       (rect_disp_to_rect_pt ⟨9, 8, 2, 5⟩ 1 10 10 10 10).y1) :=
  ⟨by norm_num, by norm_num,
   rect_disp_to_rect_pt_corner_order 9 8 2 5 1 10 10 10 10
     (by norm_num) (by norm_num) (by norm_num) (by norm_num) (by norm_num)⟩

/-- Python strings are modelled as lists of characters. -/
abbrev PyStr := List Char

/-- The ASCII whitespace characters recognised by Python's `str.strip` /
`str.rstrip` (space, tab, newline, carriage return, vertical tab, form feed). -/
def pyIsSpace (c : Char) : Bool :=
  c = ' ' || c = '\t' || c = '\n' || c = '\r' || c = '\x0b' || c = '\x0c'

/-- Python `str.strip()`: remove leading and trailing whitespace. -/
def pyStrip (s : PyStr) : PyStr :=
  ((s.dropWhile pyIsSpace).reverse.dropWhile pyIsSpace).reverse

/-- Python `str.rstrip()`: remove trailing whitespace. -/
def pyRstrip (s : PyStr) : PyStr :=
  (s.reverse.dropWhile pyIsSpace).reverse

/-- Python `str.split(sep)` for a one-character separator: split at every
occurrence of `sep`, keeping empty pieces (`"".split(sep) == [""]`). -/
def splitOnChar (sep : Char) : PyStr → List PyStr
  | [] => [[]]
  | c :: rest =>
    if c = sep then [] :: splitOnChar sep rest
    else
      match splitOnChar sep rest with
      | [] => [[c]]
      | h :: t => (c :: h) :: t

/-- Python `text.replace("\r\n", "\n")`: left-to-right non-overlapping
replacement of CRLF pairs by a newline. -/
def replaceCRLF : PyStr → PyStr
  | [] => []
  | [c] => [c]
  | c1 :: c2 :: rest =>
    if c1 = '\r' ∧ c2 = '\n' then '\n' :: replaceCRLF rest
    else c1 :: replaceCRLF (c2 :: rest)

/-- One iteration of the greedy word-accumulation loop of `wrap_text`:
`trial = w if cur == "" else cur + " " + w`; keep `trial` as the current line
if it fits, otherwise flush the (nonempty) current line and restart from `w`.
The abstract width function `tl` models `draw.textlength(·, font=font)`. -/
def wrap_step (tl : PyStr → ℚ) (max_width : ℚ)
    (acc : List PyStr × PyStr) (w : PyStr) : List PyStr × PyStr :=
  let lines := acc.1
  let cur := acc.2
  let trial := if cur = [] then w else cur ++ ' ' :: w
  if tl trial ≤ max_width then (lines, trial)
  else (if cur ≠ [] then lines ++ [cur] else lines, w)

/-- The per-paragraph body of `wrap_text`: a paragraph that strips to the empty
string contributes one empty line; otherwise the paragraph is split on single
spaces and the words are accumulated greedily, flushing the final nonempty
line at the end. -/
def wrap_paragraph (tl : PyStr → ℚ) (max_width : ℚ) (paragraph : PyStr) :
    List PyStr :=
  if pyStrip paragraph = [] then [[]]
  else
    let words := splitOnChar ' ' paragraph
    let r := words.foldl (wrap_step tl max_width) ([], [])
    if r.2 ≠ [] then r.1 ++ [r.2] else r.1

/-- `wrap_text` from the source: `(text or "")`, normalise CRLF to LF, split
into paragraphs on `"\n"`, and wrap each paragraph independently,
concatenating the resulting lines. -/
def wrap_text (tl : PyStr → ℚ) (max_width : ℚ) (text : Option PyStr) :
    List PyStr :=
  (splitOnChar '\n' (replaceCRLF (text.getD []))).flatMap
    (wrap_paragraph tl max_width)

theorem splitOnChar_ne_nil (sep : Char) (s : PyStr) : splitOnChar sep s ≠ [] := by
  induction s with
  | nil => simp [splitOnChar]
  | cons c rest ih =>
    simp only [splitOnChar]
    split
    · simp
    · split
      · simp
      · simp

theorem not_mem_of_mem_splitOnChar {sep : Char} :
    ∀ {s w : PyStr}, w ∈ splitOnChar sep s → sep ∉ w := by
  intro s
  induction s with
  | nil =>
    intro w hw
    simp [splitOnChar] at hw
    simp [hw]
  | cons c rest ih =>
    intro w hw
    simp only [splitOnChar] at hw
    by_cases hc : c = sep
    · rw [if_pos hc] at hw
      rcases List.mem_cons.mp hw with h | h
      · simp [h]
      · exact ih h
    · rw [if_neg hc] at hw
      rcases hr : splitOnChar sep rest with _ | ⟨h0, t⟩
      · exact absurd hr (splitOnChar_ne_nil sep rest)
      · rw [hr] at hw
        rcases List.mem_cons.mp hw with h | h
        · subst h
          intro hmem
          rcases List.mem_cons.mp hmem with h' | h'
          · exact hc h'.symm
          · exact ih (hr ▸ List.mem_cons_self h0 t) h'
        · exact ih (hr ▸ List.mem_cons_of_mem h0 h)

/-- A produced line is acceptable when its measured width fits or it contains
no space (i.e. it is a single word of the space-split). -/
def goodLine (tl : PyStr → ℚ) (max_width : ℚ) (l : PyStr) : Prop :=
  tl l ≤ max_width ∨ ' ' ∉ l

theorem wrap_step_preserves (tl : PyStr → ℚ) (mw : ℚ)
    (acc : List PyStr × PyStr) (w : PyStr) (hw : ' ' ∉ w)
    (h1 : ∀ l ∈ acc.1, goodLine tl mw l)
    (h2 : acc.2 = [] ∨ goodLine tl mw acc.2) :
    (∀ l ∈ (wrap_step tl mw acc w).1, goodLine tl mw l) ∧
      ((wrap_step tl mw acc w).2 = [] ∨
        goodLine tl mw (wrap_step tl mw acc w).2) := by
  simp only [wrap_step]
  by_cases hfit : tl (if acc.2 = [] then w else acc.2 ++ ' ' :: w) ≤ mw
  · rw [if_pos hfit]
    exact ⟨h1, Or.inr (Or.inl hfit)⟩
  · rw [if_neg hfit]
    by_cases hcur : acc.2 = []
    · rw [if_neg (by simpa using hcur)]
      exact ⟨h1, Or.inr (Or.inr hw)⟩
    · rw [if_pos (by simpa using hcur)]
      refine ⟨?_, Or.inr (Or.inr hw)⟩
      intro l hl
      rcases List.mem_append.mp hl with h | h
      · exact h1 l h
      · rcases h2 with h2 | h2
        · exact absurd h2 hcur
        · rwa [List.mem_singleton.mp h]

theorem wrap_fold_invariant (tl : PyStr → ℚ) (mw : ℚ) :
    ∀ (ws : List PyStr) (acc : List PyStr × PyStr),
      (∀ w ∈ ws, ' ' ∉ w) →
      (∀ l ∈ acc.1, goodLine tl mw l) →
      (acc.2 = [] ∨ goodLine tl mw acc.2) →
      (∀ l ∈ (ws.foldl (wrap_step tl mw) acc).1, goodLine tl mw l) ∧
        ((ws.foldl (wrap_step tl mw) acc).2 = [] ∨
          goodLine tl mw (ws.foldl (wrap_step tl mw) acc).2) := by
  intro ws
  induction ws with
  | nil => intro acc _ h1 h2; exact ⟨h1, h2⟩
  | cons w rest ih =>
    intro acc hws h1 h2
    simp only [List.foldl_cons]
    have hstep := wrap_step_preserves tl mw acc w
      (hws w (List.mem_cons_self w rest)) h1 h2
    exact ih (wrap_step tl mw acc w)
      (fun v hv => hws v (List.mem_cons_of_mem w hv)) hstep.1 hstep.2

theorem wrap_paragraph_lines (tl : PyStr → ℚ) (mw : ℚ) (p : PyStr) :
    ∀ l ∈ wrap_paragraph tl mw p, goodLine tl mw l := by
  intro l hl
  simp only [wrap_paragraph] at hl
  split at hl
  · rw [List.mem_singleton.mp hl]
    exact Or.inr (by simp)
  · have hws : ∀ w ∈ splitOnChar ' ' p, ' ' ∉ w :=
      fun w hw => not_mem_of_mem_splitOnChar hw
    have hinv := wrap_fold_invariant tl mw (splitOnChar ' ' p) ([], [])
      hws (by simp) (Or.inl rfl)
    split at hl
    · rcases List.mem_append.mp hl with h | h
      · exact hinv.1 l h
      · rcases hinv.2 with h2 | h2
        · rename_i hcur
          exact absurd h2 hcur
        · rwa [List.mem_singleton.mp h]
    · exact hinv.1 l hl

/-- Claim C4: `wrap_text` is deterministic (it is a pure function of the width
measure, the width bound and the text), and every produced line either fits
the width bound or contains no space, i.e. is a single word of the space
split (an over-wide word is placed alone, never split mid-word). -/
theorem wrap_text_deterministic_and_fits (tl : PyStr → ℚ) (mw : ℚ)
    (t : Option PyStr) (l : PyStr) (hl : l ∈ wrap_text tl mw t) :
    wrap_text tl mw t = wrap_text tl mw t ∧ (tl l ≤ mw ∨ ' ' ∉ l) := by
  refine ⟨rfl, ?_⟩
  simp only [wrap_text, List.mem_flatMap] at hl
  rcases hl with ⟨p, _, hp⟩
  exact wrap_paragraph_lines tl mw p l hp

/-- Concrete instance of claim C4: wrapping the single word `"ab"` at width 4
under the character-count width measure produces the line `"ab"`, which fits. -/
theorem wrap_text_deterministic_and_fits_witness :
    (['a', 'b'] : PyStr) ∈
      wrap_text (fun l => (l.length : ℚ)) 4 (some ['a', 'b']) ∧
    (wrap_text (fun l => (l.length : ℚ)) 4 (some ['a', 'b']) =
       wrap_text (fun l => (l.length : ℚ)) 4 (some ['a', 'b']) ∧
     ((fun l : PyStr => (l.length : ℚ)) ['a', 'b'] ≤ 4 ∨
       ' ' ∉ (['a', 'b'] : PyStr))) := by
  have heq : wrap_text (fun l => (l.length : ℚ)) 4 (some ['a', 'b']) =
      [['a', 'b']] := by
    norm_num +decide [wrap_text, wrap_paragraph, wrap_step, splitOnChar,
      replaceCRLF, pyStrip, pyIsSpace]
  have hmem : (['a', 'b'] : PyStr) ∈
      wrap_text (fun l => (l.length : ℚ)) 4 (some ['a', 'b']) := by
    rw [heq]; exact List.mem_singleton.mpr rfl
  exact ⟨hmem,
    wrap_text_deterministic_and_fits (fun l => (l.length : ℚ)) 4
      (some ['a', 'b']) ['a', 'b'] hmem⟩

theorem replaceCRLF_of_not_mem : ∀ (p : PyStr), '\r' ∉ p → replaceCRLF p = p := by
  intro p
  induction p with
  | nil => intro _; rfl
  | cons c rest ih =>
    intro h
    cases rest with
    | nil => rfl
    | cons c2 rest2 =>
      have hc : c ≠ '\r' := fun he => h (he ▸ List.mem_cons_self c _)
      have hrest : '\r' ∉ c2 :: rest2 := fun hm => h (List.mem_cons_of_mem c hm)
      by_cases hcr : c = '\r' ∧ c2 = '\n'
      · exact absurd hcr.1 hc
      · calc replaceCRLF (c :: c2 :: rest2)
            = c :: replaceCRLF (c2 :: rest2) := by
              simp only [replaceCRLF]
              rw [if_neg hcr]
          _ = c :: (c2 :: rest2) := by rw [ih hrest]

theorem splitOnChar_of_not_mem : ∀ (p : PyStr) (sep : Char),
    sep ∉ p → splitOnChar sep p = [p] := by
  intro p sep
  induction p with
  | nil => intro _; rfl
  | cons c rest ih =>
    intro h
    have hc : c ≠ sep := fun he => h (he ▸ List.mem_cons_self c _)
    simp only [splitOnChar]
    rw [if_neg hc, ih (fun hm => h (List.mem_cons_of_mem c hm))]

/-- Claim C10: a paragraph consisting solely of whitespace (not only the empty
paragraph) contributes exactly one empty output line, its whitespace
discarded; and an empty or missing (`None`) input text yields the
single-element list containing one empty line. -/
theorem wrap_text_blank_inputs (tl : PyStr → ℚ) (mw : ℚ) (p : PyStr)
    (hp : pyStrip p = []) (hn : '\n' ∉ p) (hr : '\r' ∉ p) :
    wrap_paragraph tl mw p = [[]] ∧
    wrap_text tl mw (some p) = [[]] ∧
    wrap_text tl mw none = [[]] ∧
    wrap_text tl mw (some []) = [[]] := by
  have hpar : wrap_paragraph tl mw p = [[]] := by
    simp only [wrap_paragraph]
    rw [if_pos hp]
  refine ⟨hpar, ?_, rfl, rfl⟩
  simp only [wrap_text, Option.getD_some]
  rw [replaceCRLF_of_not_mem p hr, splitOnChar_of_not_mem p '\n' hn]
  simp [hpar]

/-- Concrete instance of claim C10: the whitespace-only paragraph
`" \t "` wraps (at any width measure; here character count at width 4) to the
single empty line, as do the empty and the missing text. -/
theorem wrap_text_blank_inputs_witness :
    pyStrip [' ', '\t', ' '] = ([] : PyStr) ∧
    '\n' ∉ ([' ', '\t', ' '] : PyStr) ∧
    '\r' ∉ ([' ', '\t', ' '] : PyStr) ∧
    (wrap_paragraph (fun l => ((2 * l.length : ℕ) : ℚ)) 4 [' ', '\t', ' '] = [[]] ∧
     wrap_text (fun l => ((2 * l.length : ℕ) : ℚ)) 4 (some [' ', '\t', ' ']) = [[]] ∧
     wrap_text (fun l => ((2 * l.length : ℕ) : ℚ)) 4 none = [[]] ∧
     wrap_text (fun l => ((2 * l.length : ℕ) : ℚ)) 4 (some []) = [[]]) :=
  ⟨by decide, by decide, by decide,
   wrap_text_blank_inputs (fun l => ((2 * l.length : ℕ) : ℚ)) 4 [' ', '\t', ' ']
     (by decide) (by decide) (by decide)⟩

/-- The vertical-truncation step of `build_preview_image`'s text overlay:
`max_lines = max(1, ((y1 - y0) - 2*pad) // line_h)`; if more lines were
wrapped, keep the first `max_lines` and replace the trailing whitespace of the
last kept line by `" …"`.  `boxH` is the rectangle's pixel height `y1 - y0`;
`Int.fdiv` is Python's floor division `//`. -/
def truncate_to_height (lines : List PyStr) (boxH pad line_h : ℤ) :
    List PyStr :=
  let max_lines := max 1 ((boxH - 2 * pad).fdiv line_h)
  if max_lines < (lines.length : ℤ) then
    let kept := lines.take max_lines.toNat
    match kept.getLast? with
    | some l => kept.dropLast ++ [pyRstrip l ++ [' ', '…']]
    | none => kept
  else lines

/-- Claim C3: when the wrapped lines exceed
`max_lines = max(1, floor(((y1-y0) - 2*pad) / line_h))`, the truncation step
keeps exactly the first `max_lines` lines and replaces the trailing
whitespace of the last kept line with the ellipsis marker `" …"`. -/
theorem truncate_to_height_spec (lines : List PyStr) (boxH pad line_h : ℤ)
    (_hlh : 0 < line_h)
    (hlen : max 1 ((boxH - 2 * pad).fdiv line_h) < (lines.length : ℤ)) :
    ((truncate_to_height lines boxH pad line_h).length : ℤ) =
      max 1 ((boxH - 2 * pad).fdiv line_h) ∧
    (truncate_to_height lines boxH pad line_h).dropLast =
      (lines.take (max 1 ((boxH - 2 * pad).fdiv line_h)).toNat).dropLast ∧
    ∃ m, (lines.take (max 1 ((boxH - 2 * pad).fdiv line_h)).toNat).getLast? =
        some m ∧
      (truncate_to_height lines boxH pad line_h).getLast? =
        some (pyRstrip m ++ [' ', '…']) := by
  have h1 : (1:ℤ) ≤ max 1 ((boxH - 2 * pad).fdiv line_h) := le_max_left _ _
  have h0 : (0:ℤ) ≤ max 1 ((boxH - 2 * pad).fdiv line_h) := by linarith
  have hkN : (max 1 ((boxH - 2 * pad).fdiv line_h)).toNat < lines.length :=
    (Int.toNat_lt h0).mpr hlen
  have hkeptlen : (lines.take (max 1 ((boxH - 2 * pad).fdiv line_h)).toNat).length =
      (max 1 ((boxH - 2 * pad).fdiv line_h)).toNat := by
    rw [List.length_take]
    omega
  have hk1 : 1 ≤ (max 1 ((boxH - 2 * pad).fdiv line_h)).toNat := by omega
  have hne : lines.take (max 1 ((boxH - 2 * pad).fdiv line_h)).toNat ≠ [] := by
    intro hcon
    rw [hcon] at hkeptlen
    simp at hkeptlen
    omega
  obtain ⟨m, hm⟩ := Option.isSome_iff_exists.mp
    (List.getLast?_isSome.mpr hne)
  simp only [truncate_to_height]
  rw [if_pos hlen, hm]
  refine ⟨?_, List.dropLast_concat, m, rfl, List.getLast?_concat _⟩
  rw [List.length_append, List.length_dropLast, hkeptlen]
  simp only [List.length_singleton]
  omega

/-- Concrete instance of claim C3: a box allowing exactly `k = 2` lines with a
message wrapped to `k + 3 = 5` lines draws exactly 2 lines and the second one
ends in the ellipsis marker. -/
theorem truncate_to_height_spec_witness :
    (0:ℤ) < 4 ∧
    max 1 ((28 - 2 * 10 : ℤ).fdiv 4) <
      (([['a'], ['b'], ['c'], ['d'], ['e']] : List PyStr).length : ℤ) ∧
    (((truncate_to_height [['a'], ['b'], ['c'], ['d'], ['e']] 28 10 4).length : ℤ) =
       max 1 ((28 - 2 * 10 : ℤ).fdiv 4) ∧
     (truncate_to_height [['a'], ['b'], ['c'], ['d'], ['e']] 28 10 4).dropLast =
       (([['a'], ['b'], ['c'], ['d'], ['e']] : List PyStr).take
         (max 1 ((28 - 2 * 10 : ℤ).fdiv 4)).toNat).dropLast ∧
     ∃ m, (([['a'], ['b'], ['c'], ['d'], ['e']] : List PyStr).take
         (max 1 ((28 - 2 * 10 : ℤ).fdiv 4)).toNat).getLast? = some m ∧
       (truncate_to_height [['a'], ['b'], ['c'], ['d'], ['e']] 28 10 4).getLast? =
         some (pyRstrip m ++ [' ', '…'])) :=
  ⟨by decide, by decide,
   truncate_to_height_spec [['a'], ['b'], ['c'], ['d'], ['e']] 28 10 4
     (by decide) (by decide)⟩

/-- Stamp resize-and-position from `build_preview_image`'s stamp overlay.
`(x0, y0, x1, y1)` is the integer target rectangle, `(sw, sh)` the stamp's
source size.  `keep_aspect` is the source's aspect-preserving flag: uniform
scale `min(target_w/sw, target_h/sh)`, dimensions floored at one pixel, result
centred (integer halving of each margin); otherwise stretch to the exact
target.  Returns `(nw, nh, px, py)`: the resized size and the paste offset. -/
def stamp_placement (x0 y0 x1 y1 sw sh : ℤ) (keep_aspect : Bool) :
    ℤ × ℤ × ℤ × ℤ :=
  let target_w := max 1 (x1 - x0)
  let target_h := max 1 (y1 - y0)
  if keep_aspect then
    let scale : ℚ := min ((target_w : ℚ) / (sw : ℚ)) ((target_h : ℚ) / (sh : ℚ))
    let nw := max 1 (pyInt ((sw : ℚ) * scale))
    let nh := max 1 (pyInt ((sh : ℚ) * scale))
    (nw, nh, x0 + (target_w - nw).fdiv 2, y0 + (target_h - nh).fdiv 2)
  else
    (target_w, target_h, x0, y0)

theorem pyInt_of_nonneg {q : ℚ} (h : 0 ≤ q) : pyInt q = ⌊q⌋ := by
  simp only [pyInt]
  rw [if_neg (not_lt.mpr h)]

theorem resize_dim_le {s t : ℤ} (hs : 0 < s) (ht : 1 ≤ t) {sc : ℚ}
    (hsc0 : 0 ≤ sc) (hsc : sc ≤ (t : ℚ) / (s : ℚ)) :
    max 1 (pyInt ((s : ℚ) * sc)) ≤ t := by
  have hs0 : (0:ℚ) < (s : ℚ) := by exact_mod_cast hs
  have hq : (s : ℚ) * sc ≤ (t : ℚ) := by
    calc (s : ℚ) * sc ≤ (s : ℚ) * ((t : ℚ) / (s : ℚ)) :=
          mul_le_mul_of_nonneg_left hsc hs0.le
      _ = (t : ℚ) := mul_div_cancel₀ _ hs0.ne'
  have h0 : (0:ℚ) ≤ (s : ℚ) * sc := mul_nonneg hs0.le hsc0
  rw [pyInt_of_nonneg h0]
  refine max_le ht ?_
  calc ⌊(s : ℚ) * sc⌋ ≤ ⌊(t : ℚ)⌋ := Int.floor_le_floor hq
    _ = t := Int.floor_intCast t

theorem resize_dim_close {s : ℤ} (hs : 0 < s) {sc : ℚ} (hsc0 : 0 ≤ sc) :
    |((max 1 (pyInt ((s : ℚ) * sc)) : ℤ) : ℚ) - (s : ℚ) * sc| ≤ 1 := by
  have hs0 : (0:ℚ) ≤ (s : ℚ) := by exact_mod_cast hs.le
  have h0 : (0:ℚ) ≤ (s : ℚ) * sc := mul_nonneg hs0 hsc0
  rw [pyInt_of_nonneg h0]
  have hf0 : 0 ≤ ⌊(s : ℚ) * sc⌋ := Int.floor_nonneg.mpr h0
  have hfle : ((⌊(s : ℚ) * sc⌋ : ℤ) : ℚ) ≤ (s : ℚ) * sc := Int.floor_le _
  have hflt : (s : ℚ) * sc < ((⌊(s : ℚ) * sc⌋ : ℤ) : ℚ) + 1 :=
    Int.lt_floor_add_one _
  rcases eq_or_lt_of_le hf0 with hzero | hpos
  · rw [max_eq_left (by omega)]
    have : ((⌊(s : ℚ) * sc⌋ : ℤ) : ℚ) = 0 := by rw [← hzero]; norm_num
    rw [this] at hfle hflt
    rw [abs_le]
    push_cast
    constructor <;> linarith
  · rw [max_eq_right (by omega)]
    rw [abs_le]
    constructor <;> linarith

theorem center_margins {t n : ℤ} (hn : n ≤ t) :
    0 ≤ (t - n).fdiv 2 ∧
      ((t - n) - (t - n).fdiv 2 = (t - n).fdiv 2 ∨
       (t - n) - (t - n).fdiv 2 = (t - n).fdiv 2 + 1) := by
  rw [Int.fdiv_eq_ediv _ (by norm_num : (0:ℤ) ≤ 2)]
  omega

/-- Claim C5: in aspect-preserving mode the resized stamp dimensions come from
the uniform scale `min(target_w/sw, target_h/sh)` (each dimension within one
pixel of the exactly-scaled value, hence the source ratio is preserved within
integer rounding), fit within the target rectangle, and are centred in it
(the two margins on each axis differ by at most one pixel); in stretch mode
the result is exactly the target rectangle. -/
theorem stamp_placement_spec (x0 y0 x1 y1 sw sh tw th : ℤ) (scale : ℚ)
    (hsw : 0 < sw) (hsh : 0 < sh)
    (htw : tw = max 1 (x1 - x0)) (hth : th = max 1 (y1 - y0))
    (hscale : scale = min ((tw : ℚ) / (sw : ℚ)) ((th : ℚ) / (sh : ℚ))) :
    ((stamp_placement x0 y0 x1 y1 sw sh true).1 ≤ tw ∧
     (stamp_placement x0 y0 x1 y1 sw sh true).2.1 ≤ th) ∧
    (|((stamp_placement x0 y0 x1 y1 sw sh true).1 : ℚ) - (sw : ℚ) * scale| ≤ 1 ∧
     |((stamp_placement x0 y0 x1 y1 sw sh true).2.1 : ℚ) - (sh : ℚ) * scale| ≤ 1) ∧
    (0 ≤ (stamp_placement x0 y0 x1 y1 sw sh true).2.2.1 - x0 ∧
     ((tw - (stamp_placement x0 y0 x1 y1 sw sh true).1) -
        ((stamp_placement x0 y0 x1 y1 sw sh true).2.2.1 - x0) =
        (stamp_placement x0 y0 x1 y1 sw sh true).2.2.1 - x0 ∨
      (tw - (stamp_placement x0 y0 x1 y1 sw sh true).1) -
        ((stamp_placement x0 y0 x1 y1 sw sh true).2.2.1 - x0) =
        ((stamp_placement x0 y0 x1 y1 sw sh true).2.2.1 - x0) + 1)) ∧
    (0 ≤ (stamp_placement x0 y0 x1 y1 sw sh true).2.2.2 - y0 ∧
     ((th - (stamp_placement x0 y0 x1 y1 sw sh true).2.1) -
        ((stamp_placement x0 y0 x1 y1 sw sh true).2.2.2 - y0) =
        (stamp_placement x0 y0 x1 y1 sw sh true).2.2.2 - y0 ∨
      (th - (stamp_placement x0 y0 x1 y1 sw sh true).2.1) -
        ((stamp_placement x0 y0 x1 y1 sw sh true).2.2.2 - y0) =
        ((stamp_placement x0 y0 x1 y1 sw sh true).2.2.2 - y0) + 1)) ∧
    stamp_placement x0 y0 x1 y1 sw sh false = (tw, th, x0, y0) := by
  subst htw hth hscale
  have hsw0 : (0:ℚ) < (sw : ℚ) := by exact_mod_cast hsw
  have hsh0 : (0:ℚ) < (sh : ℚ) := by exact_mod_cast hsh
  have htw1 : (1:ℤ) ≤ max 1 (x1 - x0) := le_max_left _ _
  have hth1 : (1:ℤ) ≤ max 1 (y1 - y0) := le_max_left _ _
  have htwq : (0:ℚ) < ((max 1 (x1 - x0) : ℤ) : ℚ) := by exact_mod_cast by omega
  have hthq : (0:ℚ) < ((max 1 (y1 - y0) : ℤ) : ℚ) := by exact_mod_cast by omega
  have hsc0 : (0:ℚ) ≤ min (((max 1 (x1 - x0) : ℤ) : ℚ) / (sw : ℚ))
      (((max 1 (y1 - y0) : ℤ) : ℚ) / (sh : ℚ)) :=
    le_min (div_nonneg htwq.le hsw0.le) (div_nonneg hthq.le hsh0.le)
  have hnw_le := resize_dim_le hsw htw1 hsc0
    (min_le_left (((max 1 (x1 - x0) : ℤ) : ℚ) / (sw : ℚ))
      (((max 1 (y1 - y0) : ℤ) : ℚ) / (sh : ℚ)))
  have hnh_le := resize_dim_le hsh hth1 hsc0
    (min_le_right (((max 1 (x1 - x0) : ℤ) : ℚ) / (sw : ℚ))
      (((max 1 (y1 - y0) : ℤ) : ℚ) / (sh : ℚ)))
  have hnw_close := resize_dim_close hsw hsc0
  have hnh_close := resize_dim_close hsh hsc0
  have hcw := center_margins hnw_le
  have hch := center_margins hnh_le
  simp only [stamp_placement, if_pos, if_neg, Bool.true_eq_false,
    Bool.false_eq_true, ite_true, ite_false]
  refine ⟨⟨hnw_le, hnh_le⟩, ⟨hnw_close, hnh_close⟩, ⟨?_, ?_⟩, ⟨?_, ?_⟩, trivial⟩
  · have := hcw.1
    omega
  · have := hcw.2
    omega
  · have := hch.1
    omega
  · have := hch.2
    omega

/-- Concrete instance of claim C5: a `5 × 3` stamp placed into the target
rectangle `(10, 20) – (18, 26)` (target `8 × 6`): aspect mode fits and
centres it, stretch mode fills the whole rectangle. -/
theorem stamp_placement_spec_witness :
    (0:ℤ) < 5 ∧ (0:ℤ) < 3 ∧
    (8:ℤ) = max 1 (18 - 10) ∧ (6:ℤ) = max 1 (26 - 20) ∧
    (min ((8:ℚ) / 5) ((6:ℚ) / 3) = min (((8:ℤ) : ℚ) / ((5:ℤ) : ℚ)) (((6:ℤ) : ℚ) / ((3:ℤ) : ℚ))) ∧
    (((stamp_placement 10 20 18 26 5 3 true).1 ≤ 8 ∧
      (stamp_placement 10 20 18 26 5 3 true).2.1 ≤ 6) ∧
     (|((stamp_placement 10 20 18 26 5 3 true).1 : ℚ) -
         (5 : ℚ) * min (((8:ℤ) : ℚ) / ((5:ℤ) : ℚ)) (((6:ℤ) : ℚ) / ((3:ℤ) : ℚ))| ≤ 1 ∧
      |((stamp_placement 10 20 18 26 5 3 true).2.1 : ℚ) -
         (3 : ℚ) * min (((8:ℤ) : ℚ) / ((5:ℤ) : ℚ)) (((6:ℤ) : ℚ) / ((3:ℤ) : ℚ))| ≤ 1) ∧
     (0 ≤ (stamp_placement 10 20 18 26 5 3 true).2.2.1 - 10 ∧
      ((8 - (stamp_placement 10 20 18 26 5 3 true).1) -
         ((stamp_placement 10 20 18 26 5 3 true).2.2.1 - 10) =
         (stamp_placement 10 20 18 26 5 3 true).2.2.1 - 10 ∨
       (8 - (stamp_placement 10 20 18 26 5 3 true).1) -
         ((stamp_placement 10 20 18 26 5 3 true).2.2.1 - 10) =
         ((stamp_placement 10 20 18 26 5 3 true).2.2.1 - 10) + 1)) ∧
     (0 ≤ (stamp_placement 10 20 18 26 5 3 true).2.2.2 - 20 ∧
      ((6 - (stamp_placement 10 20 18 26 5 3 true).2.1) -
         ((stamp_placement 10 20 18 26 5 3 true).2.2.2 - 20) =
         (stamp_placement 10 20 18 26 5 3 true).2.2.2 - 20 ∨
       (6 - (stamp_placement 10 20 18 26 5 3 true).2.1) -
         ((stamp_placement 10 20 18 26 5 3 true).2.2.2 - 20) =
         ((stamp_placement 10 20 18 26 5 3 true).2.2.2 - 20) + 1)) ∧
     stamp_placement 10 20 18 26 5 3 false = (8, 6, 10, 20)) :=
  ⟨by decide, by decide, by decide, by decide, by norm_num,
   stamp_placement_spec 10 20 18 26 5 3 8 6
     (min (((8:ℤ) : ℚ) / ((5:ℤ) : ℚ)) (((6:ℤ) : ℚ) / ((3:ℤ) : ℚ)))
     (by decide) (by decide) (by decide) (by decide) rfl⟩

/-- One object of the drawable-canvas JSON: the fields read by
`get_last_rect_from_canvas` via `o.get(...)`, each possibly absent. -/
structure CanvasObj where
  type : Option PyStr
  left : Option ℚ
  top : Option ℚ
  width : Option ℚ
  height : Option ℚ
  scaleX : Option ℚ
  scaleY : Option ℚ
deriving DecidableEq, Repr

/-- `get_last_rect_from_canvas` from the source.  The outer `Option` is a
missing/falsy `canvas_json`; the inner `Option` is a missing `"objects"` key.
Defaults mirror the source: `left`/`top`/`width`/`height` default to `0`,
`scaleX`/`scaleY` to `1`; the returned corners are not sorted. -/
def get_last_rect_from_canvas (canvas_json : Option (Option (List CanvasObj))) :
    Option Rect :=
  match canvas_json with
  | none => none
  | some objsOpt =>
    match objsOpt with
    | none => none
    | some objs =>
      if objs = [] then none
      else
        let rects := objs.filter fun o => o.type = some ['r', 'e', 'c', 't']
        match rects.getLast? with
        | none => none
        | some o =>
          let left := o.left.getD 0
          let top := o.top.getD 0
          let w := o.width.getD 0 * o.scaleX.getD 1
          let h := o.height.getD 0 * o.scaleY.getD 1
          some ⟨left, top, left + w, top + h⟩

/-- Claim C8: `get_last_rect_from_canvas` returns `none` ("no selection")
when the canvas data is absent, has no `"objects"` key, has an empty object
list, or contains no `"rect"`-typed object; otherwise it picks the last
rectangle-typed object and returns
`(left, top, left + width*scaleX, top + height*scaleY)` unsorted. -/
theorem get_last_rect_from_canvas_spec (objs : List CanvasObj) (o : CanvasObj) :
    get_last_rect_from_canvas none = none ∧
    get_last_rect_from_canvas (some none) = none ∧
    get_last_rect_from_canvas (some (some [])) = none ∧
    ((objs.filter fun o' => o'.type = some ['r', 'e', 'c', 't']) = [] →
      get_last_rect_from_canvas (some (some objs)) = none) ∧
    ((objs.filter fun o' => o'.type = some ['r', 'e', 'c', 't']).getLast? =
        some o →
      get_last_rect_from_canvas (some (some objs)) =
        some ⟨o.left.getD 0, o.top.getD 0,
              o.left.getD 0 + o.width.getD 0 * o.scaleX.getD 1,
              o.top.getD 0 + o.height.getD 0 * o.scaleY.getD 1⟩) := by
  refine ⟨rfl, rfl, rfl, ?_, ?_⟩
  · intro hfil
    by_cases hobjs : objs = []
    · subst hobjs; rfl
    · simp only [get_last_rect_from_canvas]
      rw [if_neg hobjs, hfil]
      rfl
  · intro hlast
    have hobjs : objs ≠ [] := by
      intro hcon
      subst hcon
      simp at hlast
    simp only [get_last_rect_from_canvas]
    rw [if_neg hobjs, hlast]

/-- Concrete instances of claim C8: a canvas whose only object is a circle
reports no selection; a canvas with two rectangles returns the most recently
added one, corners unsorted. -/
theorem get_last_rect_from_canvas_spec_witness :
    ((([⟨some ['c', 'i', 'r', 'c'], some 9, some 9, some 9, some 9, some 1, some 1⟩] :
        List CanvasObj).filter
          fun o' => o'.type = some ['r', 'e', 'c', 't']) = [] ∧
     get_last_rect_from_canvas
       (some (some [⟨some ['c', 'i', 'r', 'c'], some 9, some 9, some 9, some 9,
         some 1, some 1⟩])) = none) ∧
    ((([⟨some ['r', 'e', 'c', 't'], some 9, some 9, some 9, some 9, some 1, some 1⟩,
        ⟨some ['r', 'e', 'c', 't'], some 1, some 2, some 3, some 4, some 2, some 2⟩] :
        List CanvasObj).filter
          fun o' => o'.type = some ['r', 'e', 'c', 't']).getLast? =
        some ⟨some ['r', 'e', 'c', 't'], some 1, some 2, some 3, some 4, some 2,
          some 2⟩ ∧
     get_last_rect_from_canvas
       (some (some [⟨some ['r', 'e', 'c', 't'], some 9, some 9, some 9, some 9,
         some 1, some 1⟩,
         ⟨some ['r', 'e', 'c', 't'], some 1, some 2, some 3, some 4, some 2,
           some 2⟩])) =
       some ⟨(some (1:ℚ)).getD 0, (some (2:ℚ)).getD 0,
             (some (1:ℚ)).getD 0 + (some (3:ℚ)).getD 0 * (some (2:ℚ)).getD 1,
             (some (2:ℚ)).getD 0 + (some (4:ℚ)).getD 0 * (some (2:ℚ)).getD 1⟩) := by
  constructor
  · have h : (([⟨some ['c', 'i', 'r', 'c'], some 9, some 9, some 9, some 9, some 1,
        some 1⟩] : List CanvasObj).filter
          fun o' => o'.type = some ['r', 'e', 'c', 't']) = [] := by decide
    exact ⟨h,
      (get_last_rect_from_canvas_spec
        [⟨some ['c', 'i', 'r', 'c'], some 9, some 9, some 9, some 9, some 1, some 1⟩]
        ⟨none, none, none, none, none, none, none⟩).2.2.2.1 h⟩
  · have h : (([⟨some ['r', 'e', 'c', 't'], some 9, some 9, some 9, some 9, some 1,
        some 1⟩,
        ⟨some ['r', 'e', 'c', 't'], some 1, some 2, some 3, some 4, some 2, some 2⟩] :
        List CanvasObj).filter
          fun o' => o'.type = some ['r', 'e', 'c', 't']).getLast? =
        some ⟨some ['r', 'e', 'c', 't'], some 1, some 2, some 3, some 4, some 2,
          some 2⟩ := by decide
    exact ⟨h,
      (get_last_rect_from_canvas_spec
        [⟨some ['r', 'e', 'c', 't'], some 9, some 9, some 9, some 9, some 1, some 1⟩,
         ⟨some ['r', 'e', 'c', 't'], some 1, some 2, some 3, some 4, some 2, some 2⟩]
        ⟨some ['r', 'e', 'c', 't'], some 1, some 2, some 3, some 4, some 2,
          some 2⟩).2.2.2.2 h⟩

/-- One mutation applied to a PDF page by `apply_edits_to_pdf`, as the
abstract Document-Mutator capability calls of the source. -/
inductive PdfEdit
  | textbox (r : Rect) (message : PyStr) (fontsize : ℤ)
  | image (r : Rect) (keep_proportion : Bool)
deriving DecidableEq, Repr

/-- A PDF page, modelled as the list of edits inserted into it. -/
abbrev PdfPage := List PdfEdit

/-- A PDF document: its pages (so `doc.page_count = pages.length`). -/
abbrev PdfDoc := List PdfPage

/-- The per-page rectangle dictionary `d` (keys `"texto"`/`"stamp"`). -/
structure PageEditsMap where
  texto : Option Rect
  stamp : Option Rect
deriving DecidableEq, Repr

/-- The body of `apply_edits_to_pdf`'s loop for one in-range page: insert the
text box if a `"texto"` rectangle exists and the message is non-blank, then
the image if a `"stamp"` rectangle exists and stamp bytes are present
(`stamp_png` models the truthiness of `stamp_png_bytes`). -/
def apply_page_edits (page : PdfPage) (d : PageEditsMap) (message : PyStr)
    (font_pt : ℤ) (stamp_png : Bool) (keep_aspect : Bool) : PdfPage :=
  let page1 :=
    match d.texto with
    | some r =>
      if pyStrip message ≠ [] then page ++ [.textbox r message font_pt] else page
    | none => page
  match d.stamp with
  | some r => if stamp_png then page1 ++ [.image r keep_aspect] else page1
  | none => page1

/-- The `for pno, d in rects_by_page.items()` loop of `apply_edits_to_pdf`
(dict iteration order = insertion order, modelled as an association list).
A page index that is negative or `≥ doc.page_count` is skipped (`continue`);
otherwise `doc[pno]` is accessed — `none` models the `IndexError` that an
unguarded out-of-range access would raise. -/
def apply_edits_loop (doc : PdfDoc) (rects_by_page : List (ℤ × PageEditsMap))
    (message : PyStr) (font_pt : ℤ) (stamp_png : Bool) (keep_aspect : Bool) :
    Option PdfDoc :=
  match rects_by_page with
  | [] => some doc
  | (pno, d) :: rest =>
    if pno < 0 ∨ (doc.length : ℤ) ≤ pno then
      apply_edits_loop doc rest message font_pt stamp_png keep_aspect
    else
      match doc[pno.toNat]? with
      | none => none
      | some page =>
        apply_edits_loop
          (doc.set pno.toNat
            (apply_page_edits page d message font_pt stamp_png keep_aspect))
          rest message font_pt stamp_png keep_aspect

/-- `apply_edits_to_pdf` from the source, on the abstract document model. -/
def apply_edits_to_pdf (doc : PdfDoc) (rects_by_page : List (ℤ × PageEditsMap))
    (message : PyStr) (font_pt : ℤ) (stamp_png : Bool) (keep_aspect : Bool) :
    Option PdfDoc :=
  apply_edits_loop doc rects_by_page message font_pt stamp_png keep_aspect

/-- Claim C6: `apply_edits_to_pdf` never fails on out-of-range page indices —
it always returns a document — and deleting the out-of-range entries from the
mapping does not change the result: only the in-range pages are processed,
each exactly as it would be without the out-of-range entries. -/
theorem apply_edits_to_pdf_skips_out_of_range (doc : PdfDoc)
    (rects_by_page : List (ℤ × PageEditsMap)) (message : PyStr) (font_pt : ℤ)
    (stamp_png : Bool) (keep_aspect : Bool) :
    (apply_edits_to_pdf doc rects_by_page message font_pt stamp_png
        keep_aspect).isSome ∧
    apply_edits_to_pdf doc rects_by_page message font_pt stamp_png keep_aspect =
      apply_edits_to_pdf doc
        (rects_by_page.filter fun p => 0 ≤ p.1 ∧ p.1 < (doc.length : ℤ))
        message font_pt stamp_png keep_aspect := by
  simp only [apply_edits_to_pdf]
  induction rects_by_page generalizing doc with
  | nil => exact ⟨rfl, rfl⟩
  | cons hd rest ih =>
    obtain ⟨pno, d⟩ := hd
    by_cases hrange : pno < 0 ∨ (doc.length : ℤ) ≤ pno
    · have hfil : ¬ (0 ≤ pno ∧ pno < (doc.length : ℤ)) := by omega
      simp only [apply_edits_loop, if_pos hrange, List.filter_cons]
      rw [if_neg (by simpa using hfil)]
      exact ih doc
    · have h0 : 0 ≤ pno := by omega
      have hlt : pno.toNat < doc.length := by omega
      have hfil : 0 ≤ pno ∧ pno < (doc.length : ℤ) := by omega
      have hpage : doc[pno.toNat]? = some doc[pno.toNat] :=
        List.getElem?_eq_getElem hlt
      simp only [apply_edits_loop, if_neg hrange, List.filter_cons]
      rw [if_pos (by simpa using hfil)]
      simp only [apply_edits_loop, if_neg hrange, hpage]
      have hlen : ((doc.set pno.toNat
          (apply_page_edits doc[pno.toNat] d message font_pt stamp_png
            keep_aspect)).length : ℤ) = (doc.length : ℤ) := by
        simp
      have := ih (doc.set pno.toNat
        (apply_page_edits doc[pno.toNat] d message font_pt stamp_png keep_aspect))
      rw [hlen] at this
      exact this

/-- One PIL drawing call recorded against an image buffer: the
`draw.rectangle`, `draw.text` and `img.alpha_composite` calls of
`build_preview_image`. -/
inductive DrawOp
  | rectangle (x0 y0 x1 y1 : ℤ) (filled : Bool) (width : ℤ)
  | text (x y : ℤ) (line : PyStr)
  | alphaComposite (x y w h : ℤ)
deriving DecidableEq, Repr

/-- A PIL image: its pixel size, an abstract identity for its underlying
pixel content, and the log of drawing operations applied to it. -/
structure Img where
  w : ℤ
  h : ℤ
  content : ℕ
  ops : List DrawOp
deriving DecidableEq, Repr

/-- The mutable image heap: PIL images are mutable objects, so drawing is
modelled as explicit state on a store of buffers. -/
structure Store where
  bufs : List Img
deriving DecidableEq, Repr

/-- Allocate a new image buffer (e.g. `base_img.copy()`), returning its index. -/
def Store.alloc (s : Store) (img : Img) : Store × ℕ :=
  (⟨s.bufs ++ [img]⟩, s.bufs.length)

/-- Record one drawing operation against buffer `i` (in-place mutation). -/
def Store.draw (s : Store) (i : ℕ) (op : DrawOp) : Store :=
  match s.bufs[i]? with
  | some img => ⟨s.bufs.set i { img with ops := img.ops ++ [op] }⟩
  | none => s

/-- Record a sequence of drawing operations against buffer `i`, in order. -/
def Store.drawMany (s : Store) (i : ℕ) : List DrawOp → Store
  | [] => s
  | op :: rest => Store.drawMany (s.draw i op) i rest

/-- The `draw.text((x0+pad, yy), ln, ...)` loop: one text op per line, with
`yy` advancing by `line_h`. -/
def text_line_ops (x yy line_h : ℤ) : List PyStr → List DrawOp
  | [] => []
  | ln :: rest => .text x yy ln :: text_line_ops x (yy + line_h) line_h rest

/-- The text-overlay block of `build_preview_image` as its list of drawing
operations: drawn only when a text rectangle exists and the message is
non-blank; filled rectangle, then the wrapped and height-truncated lines.
`tl` and `font_bbox_h` abstract the PIL font (`draw.textlength` and
`font.getbbox("Ag")[3] - font.getbbox("Ag")[1]`). -/
def text_overlay_ops (rect_text_pt : Option Rect) (message : PyStr)
    (tl : PyStr → ℚ) (font_bbox_h : ℤ) (img_w img_h : ℤ)
    (page_w_pt page_h_pt : ℚ) : List DrawOp :=
  match rect_text_pt with
  | none => []
  | some rt =>
    if pyStrip message = [] then []
    else
      let rpx := rect_pt_to_rect_px rt (img_w : ℚ) (img_h : ℚ) page_w_pt page_h_pt
      let x0 := pyInt rpx.x0
      let y0 := pyInt rpx.y0
      let x1 := pyInt rpx.x1
      let y1 := pyInt rpx.y1
      let pad : ℤ := 10
      let max_w := max 10 ((x1 - x0) - 2 * pad)
      let lines := wrap_text tl (max_w : ℚ) (some message)
      let line_h := font_bbox_h + 4
      let lines2 := truncate_to_height lines (y1 - y0) pad line_h
      .rectangle x0 y0 x1 y1 true 3 ::
        text_line_ops (x0 + pad) (y0 + pad) line_h lines2

/-- The stamp-overlay block of `build_preview_image` as its list of drawing
operations: drawn only when a stamp rectangle exists and a decoded stamp
image is available; outlined rectangle, then the resized stamp composited at
the position computed by `stamp_placement`. -/
def stamp_overlay_ops (rect_stamp_pt : Option Rect) (stamp_pil : Option Img)
    (keep_aspect : Bool) (img_w img_h : ℤ) (page_w_pt page_h_pt : ℚ) :
    List DrawOp :=
  match rect_stamp_pt, stamp_pil with
  | some rs, some stamp =>
    let rpx := rect_pt_to_rect_px rs (img_w : ℚ) (img_h : ℚ) page_w_pt page_h_pt
    let x0 := pyInt rpx.x0
    let y0 := pyInt rpx.y0
    let x1 := pyInt rpx.x1
    let y1 := pyInt rpx.y1
    let p := stamp_placement x0 y0 x1 y1 stamp.w stamp.h keep_aspect
    [.rectangle x0 y0 x1 y1 false 3, .alphaComposite p.2.2.1 p.2.2.2 p.1 p.2.1]
  | _, _ => []

/-- `build_preview_image` from the source, on the image store: copy the base
render into a fresh buffer, record the text-overlay then the stamp-overlay
drawing calls against that copy only, and allocate the final
`convert("RGB")` result as another fresh buffer, whose index is returned.
`none` models the `AttributeError` a missing base image would raise. -/
def build_preview_image (s : Store) (base : ℕ) (page_w_pt page_h_pt : ℚ)
    (rect_text_pt rect_stamp_pt : Option Rect) (message : PyStr) (font_pt : ℤ)
    (stamp_pil : Option Img) (keep_aspect : Bool) (tl : PyStr → ℚ)
    (font_bbox_h : ℤ) : Store × Option ℕ :=
  match s.bufs[base]? with
  | none => (s, none)
  | some baseImg =>
    let r1 := s.alloc baseImg
    let s1 := r1.1
    let i := r1.2
    let px_per_pt := (baseImg.w : ℚ) / page_w_pt
    let _font_px := max 10 (pyInt ((font_pt : ℚ) * px_per_pt))
    let ops :=
      text_overlay_ops rect_text_pt message tl font_bbox_h baseImg.w baseImg.h
        page_w_pt page_h_pt ++
      stamp_overlay_ops rect_stamp_pt stamp_pil keep_aspect baseImg.w
        baseImg.h page_w_pt page_h_pt
    let s2 := s1.drawMany i ops
    let r2 := s2.alloc (s2.bufs[i]?.getD baseImg)
    (r2.1, some r2.2)

theorem Store.draw_preserves (s : Store) (i j : ℕ) (op : DrawOp)
    (hij : j ≠ i) : (s.draw i op).bufs[j]? = s.bufs[j]? := by
  simp only [Store.draw]
  cases h : s.bufs[i]? with
  | none => rfl
  | some img => exact List.getElem?_set_ne (Ne.symm hij)

theorem Store.draw_length (s : Store) (i : ℕ) (op : DrawOp) :
    (s.draw i op).bufs.length = s.bufs.length := by
  simp only [Store.draw]
  cases h : s.bufs[i]? with
  | none => rfl
  | some img => exact List.length_set ..

theorem Store.drawMany_preserves (i j : ℕ) (hij : j ≠ i) :
    ∀ (ops : List DrawOp) (s : Store),
      (Store.drawMany s i ops).bufs[j]? = s.bufs[j]? := by
  intro ops
  induction ops with
  | nil => intro s; rfl
  | cons op rest ih =>
    intro s
    rw [Store.drawMany, ih (s.draw i op), Store.draw_preserves s i j op hij]

theorem Store.drawMany_length (i : ℕ) :
    ∀ (ops : List DrawOp) (s : Store),
      (Store.drawMany s i ops).bufs.length = s.bufs.length := by
  intro ops
  induction ops with
  | nil => intro s; rfl
  | cons op rest ih =>
    intro s
    rw [Store.drawMany, ih (s.draw i op), Store.draw_length s i op]

/-- Claim C9: `build_preview_image` never mutates the base render — for every
combination of rectangles, message, stamp and flags, all drawing is recorded
against the freshly allocated copy, and the `base_img` buffer is unchanged
after the call. -/
theorem build_preview_image_preserves_base (s : Store) (base : ℕ)
    (page_w_pt page_h_pt : ℚ) (rect_text_pt rect_stamp_pt : Option Rect)
    (message : PyStr) (font_pt : ℤ) (stamp_pil : Option Img)
    (keep_aspect : Bool) (tl : PyStr → ℚ) (font_bbox_h : ℤ) :
    (build_preview_image s base page_w_pt page_h_pt rect_text_pt rect_stamp_pt
        message font_pt stamp_pil keep_aspect tl font_bbox_h).1.bufs[base]? =
      s.bufs[base]? := by
  cases h : s.bufs[base]? with
  | none => simp [build_preview_image, h]
  | some baseImg =>
    have hbase : base < s.bufs.length := by
      by_contra hcon
      push_neg at hcon
      rw [List.getElem?_eq_none hcon] at h
      exact Option.noConfusion h
    have hne : base ≠ s.bufs.length := Nat.ne_of_lt hbase
    simp only [build_preview_image, h, Store.alloc]
    rw [List.getElem?_append_left]
    · rw [Store.drawMany_preserves s.bufs.length base hne]
      show (s.bufs ++ [baseImg])[base]? = some baseImg
      rw [List.getElem?_append_left hbase, h]
    · rw [Store.drawMany_length]
      simpa using Nat.lt_succ_of_lt hbase
